import Mathlib

/-!
Sketch file viewer (`sketch.c`): instruction decoding, `obey`, `processSketch`.

A shallow embedding of `src/sketch.c`.

* A byte (`unsigned char`) is a `Fin 256`.
* The C `int` values are mathematical integers; the bit operators `&`, `|`,
  `<<` are `Int.land`, `Int.lor` and `<<<` on `ℤ` (two's complement on
  negative values).
* The enumeration constants `TOOL, DX, DY, DATA` and `NONE, ..., NEXTFRAME`
  come from `sketch.h`, which is not part of the sources: they are a
  parameter (`Consts`) of every definition that uses them.
* The display functions of `displayfull.h` (`line`, `block`, `colour`,
  `show`, `pause`) are recorded as a trace of `Call`s.
* The file read at the start of `processSketch` is the byte list `store`.
-/

set_option maxRecDepth 100000

namespace Sketch

/-- Modelled from the spec: the type `byte` of `sketch.h` (absent from the
sources), one of the 256 byte values. -/
abbrev byte := Fin 256

/-- Enumeration constants of `sketch.h` that `sketch.c` uses: the four opcode
classes and the nine sub-actions of the TOOL class. The header is not among
the sources, so the numbering is a parameter. -/
structure Consts where
  DX : Int
  DY : Int
  TOOL : Int
  DATA : Int
  NONE : Int
  LINE : Int
  BLOCK : Int
  COLOUR : Int
  TARGETX : Int
  TARGETY : Int
  SHOW : Int
  PAUSE : Int
  NEXTFRAME : Int
deriving DecidableEq

/-- What a C compiler requires of the header for `sketch.c` to be a program
with the four opcode classes: the opcode constants are pairwise different and
the `case` labels of the `switch` in `obey` are pairwise different. -/
def Consts.wellFormed (K : Consts) : Prop :=
  [K.TOOL, K.DX, K.DY, K.DATA].Nodup ∧
  [K.NONE, K.LINE, K.COLOUR, K.BLOCK, K.TARGETX, K.TARGETY, K.SHOW, K.PAUSE,
    K.NEXTFRAME].Nodup

instance (K : Consts) : Decidable K.wellFormed := by
  unfold Consts.wellFormed; infer_instance

/-- Modelled from the spec: the numbering of `sketch.h` (absent from the
sources). The opcode classes follow the file-format table of the spec
(`00` TOOL, `01` DX, `10` DY, `11` DATA); the sub-actions are numbered in the
order of the `switch` in `obey`, which makes `LINE = 1`, the tool that the
literal in `newState` installs. Used only to evaluate the model on concrete
inputs. -/
def specConsts : Consts where
  TOOL := 0
  DX := 1
  DY := 2
  DATA := 3
  NONE := 0
  LINE := 1
  COLOUR := 2
  BLOCK := 3
  TARGETX := 4
  TARGETY := 5
  SHOW := 6
  PAUSE := 7
  NEXTFRAME := 8

/-- Modelled from the spec: the record `state` of `sketch.h` (absent from the
sources). The field names are those that `sketch.c` reads and writes, in the
order of the literal in `newState`. Following the data model of the spec, the
cursor, the target, the tool and the accumulator are integers without bound,
`start` is a byte index and `end` a flag. -/
structure State where
  x : Int
  y : Int
  tx : Int
  ty : Int
  tool : Int
  start : Nat
  data : Int
  «end» : Bool
deriving DecidableEq

/-- Modelled from the spec: a call to one of the drawing functions of
`displayfull.h` (absent from the sources): `line(x0, y0, x1, y1)`,
`block(x, y, w, h)`, `colour(v)`, `show()`, `pause(v)`. -/
inductive Call where
  | line (x0 y0 x1 y1 : Int)
  | block (x y w h : Int)
  | colour (v : Int)
  | show
  | pause (v : Int)
deriving DecidableEq

/-- The state written by `newState`: `{0, 0, 0, 0, 1, 0, 0, 0}`. -/
def newState : State :=
  { x := 0, y := 0, tx := 0, ty := 0, tool := 1, start := 0, data := 0, «end» := false }

/-- The function `getOpcode`: `b >> 6`. -/
def getOpcode (b : byte) : Int :=
  ((b.val >>> 6 : Nat) : Int)

/-- The function `getOperand`: `newOperand = b & 0x3F`, then
`-(newOperand & 32) + (newOperand & 31)`. -/
def getOperand (b : byte) : Int :=
  let newOperand : Int := Int.land (b.val : Int) 0x3F
  let result : Int := -(Int.land newOperand 32) + (Int.land newOperand 31)
  result

/-- The function `obey`: execute one byte of the command sequence. The result is the
updated state and the display calls issued, in order. -/
def obey (K : Consts) (s : State) (op : byte) : State × List Call :=
  let opcode := getOpcode op
  let operand := getOperand op
  if opcode = K.TOOL then
    let r : State × List Call :=
      if operand = K.NONE then ({ s with tool := K.NONE }, [])
      else if operand = K.LINE then ({ s with tool := K.LINE }, [])
      else if operand = K.COLOUR then ({ s with tool := K.COLOUR }, [Call.colour s.data])
      else if operand = K.BLOCK then ({ s with tool := K.BLOCK }, [])
      else if operand = K.TARGETX then ({ s with tx := s.data }, [])
      else if operand = K.TARGETY then ({ s with ty := s.data }, [])
      else if operand = K.SHOW then (s, [Call.show])
      else if operand = K.PAUSE then (s, [Call.pause s.data])
      else if operand = K.NEXTFRAME then ({ s with «end» := true }, [])
      else (s, [])
    ({ r.1 with data := 0 }, r.2)
  else if opcode = K.DX then
    ({ s with tx := s.tx + operand }, [])
  else if opcode = K.DY then
    let s1 : State := { s with ty := s.ty + operand }
    let calls : List Call :=
      if s1.tool = K.LINE then [Call.line s1.x s1.y s1.tx s1.ty]
      else if s1.tool = K.BLOCK then [Call.block s1.x s1.y (s1.tx - s1.x) (s1.ty - s1.y)]
      else []
    ({ s1 with x := s1.tx, y := s1.ty }, calls)
  else if opcode = K.DATA then
    ({ s with data := Int.lor (s.data <<< (6 : Int)) (Int.land operand 0x3F) }, [])
  else (s, [])

/-- What one run of the `for` loop of `processSketch` leaves behind: the
state, the display calls issued, and the indices `i` for which
`obey(d, s, store[i])` was executed, in order. -/
structure Pass where
  state : State
  calls : List Call
  applied : List Nat
deriving DecidableEq

/-- The loop `for (int i = start; i < len; i++)` of `processSketch`, from
index `i` on, with state `s`. `fuel` bounds the number of iterations; the
caller passes `len - start`. -/
def frameLoop (K : Consts) (store : List byte) : Nat → Nat → State → Pass
  | 0, _, s => { state := s, calls := [], applied := [] }
  | fuel + 1, i, s =>
    if h : i < store.length then
      let r := obey K s (store[i])
      if r.1.«end» = true then
        { state := { r.1 with start := i + 1 }, calls := r.2, applied := [i] }
      else
        let rest := frameLoop K store fuel (i + 1) r.1
        { state := rest.state, calls := r.2 ++ rest.calls, applied := i :: rest.applied }
    else { state := s, calls := [], applied := [] }

/-- Result of one call of `processSketch`: the returned `bool`, the drawing
state afterwards (`none` when `data == NULL`), the display calls issued and
the indices of the bytes given to `obey`. -/
structure Outcome where
  ret : Bool
  state : Option State
  calls : List Call
  applied : List Nat
deriving DecidableEq

/-- The index at which a call of `processSketch` starts its loop:
`int start = 0; if (s->end == true) start = s->start;`. -/
def startIndex (s : State) : Nat :=
  if s.«end» = true then s.start else 0

/-- The function `processSketch`, on the content `store` of the file named by the
display. -/
def processSketch (K : Consts) (store : List byte) (pressedKey : Int) :
    Option State → Outcome
  | none => { ret := decide (pressedKey = 27), state := none, calls := [], applied := [] }
  | some s =>
    let start := startIndex s
    let s0 : State := { s with «end» := false }
    let p := frameLoop K store (store.length - start) start s0
    let s1 := p.state
    let s2 : State := { s1 with x := 0, y := 0, tx := 0, ty := 0, tool := K.LINE }
    { ret := decide (pressedKey ≠ 0), state := some s2,
      calls := p.calls ++ [Call.show], applied := p.applied }

/-- Applying `obey` to the bytes `bs` one after the other, from state `s`:
the final state and the display calls of all the steps, in order. -/
def obeySeq (K : Consts) : State → List byte → State × List Call
  | s, [] => (s, [])
  | s, b :: bs =>
    let r := obey K s b
    let t := obeySeq K r.1 bs
    (t.1, r.2 ++ t.2)

/-- The 6-bit chunk carried by a byte: its low six bits. -/
def chunk (b : byte) : Nat := b.val % 64

/-- The big-endian base-64 value `c1*64^(n-1) + ... + cn` of the chunks
`c1..cn`. -/
def base64Value : List Nat → Nat
  | [] => 0
  | c :: cs => c * 64 ^ cs.length + base64Value cs

/-- A byte is a NEXTFRAME instruction: class TOOL with operand NEXTFRAME. -/
def isNextFrame (K : Consts) (b : byte) : Prop :=
  getOpcode b = K.TOOL ∧ getOperand b = K.NEXTFRAME

instance (K : Consts) (b : byte) : Decidable (isNextFrame K b) := by
  unfold isNextFrame; infer_instance

/-- The bytes of `store` at the indices `idxs`, in that order. -/
def appliedBytes (store : List byte) (idxs : List Nat) : List byte :=
  idxs.filterMap (fun i => store[i]?)

/-- Successive calls of `processSketch` on the same stream, one for each key
in `keys`, each on the state that the call before it left. The result is the
state after the last call. -/
def processCalls (K : Consts) (store : List byte) (keys : List Int)
    (data : Option State) : Option State :=
  keys.foldl (fun d key => (processSketch K store key d).state) data

/-! ## Decoding -/

theorem getOperand_formula : ∀ b : byte,
    getOperand b = -32 * ((b.val / 32 % 2 : Nat) : Int) + ((b.val % 32 : Nat) : Int) := by
  decide

theorem ldiff_mask (m : Nat) (h : m < 32) : Nat.ldiff 63 m = 63 - m := by
  interval_cases m <;> simp only [Nat.ldiff] <;> repeat (rw [Nat.bitwise]; simp)

/-- On the range of operands, `k & 0x3F` is `k` modulo 64. -/
theorem land_mask_of_range (k : Int) (h1 : -32 ≤ k) (h2 : k ≤ 31) :
    Int.land k 0x3F = k % 64 := by
  cases k with
  | ofNat n =>
    have hn : n < 32 := by simp at h2; omega
    show ((n &&& 63 : Nat) : Int) = _
    have : n &&& 63 = n := by interval_cases n <;> decide
    rw [this]
    simp; omega
  | negSucc m =>
    have hm : m < 32 := by
      have := Int.negSucc_eq m; omega
    show ((Nat.ldiff 63 m : Nat) : Int) = _
    rw [ldiff_mask m hm, Int.negSucc_eq]
    omega

theorem land_operand (b : byte) :
    Int.land (getOperand b) 0x3F = ((chunk b : Nat) : Int) := by
  have h := getOperand_formula b
  rw [land_mask_of_range _ (by rw [h]; omega) (by rw [h]; omega), h]
  unfold chunk
  omega

theorem land_raw : ∀ b : byte,
    Int.land ((b.val : Nat) : Int) 0x3F = ((chunk b : Nat) : Int) := by
  decide

/-- C1. For every byte `b`, `getOperand b` is `-32*s + (b mod 32)` with `s`
bit 5 of `b`; so it lies in `[-32, 31]` and two bytes with the same low six
bits have the same operand. `getOperand 0x20 = -32`, `getOperand 0x1F = 31`,
`getOperand 0x3F = -1`. -/
theorem getOperand_spec (b : byte) :
    getOperand b = -32 * ((b.val / 32 % 2 : Nat) : Int) + ((b.val % 32 : Nat) : Int) ∧
    -32 ≤ getOperand b ∧ getOperand b ≤ 31 ∧
    (∀ b2 : byte, b2.val % 64 = b.val % 64 → getOperand b2 = getOperand b) ∧
    getOperand 0x20 = -32 ∧ getOperand 0x1F = 31 ∧ getOperand 0x3F = -1 := by
  have h := getOperand_formula b
  refine ⟨h, by omega, by omega, ?_, by decide, by decide, by decide⟩
  intro b2 hb
  rw [h, getOperand_formula b2]
  omega

/-! ## `obey` -/

/-- The opcode constants of a well-formed header are pairwise different. -/
theorem wf_opcodes (K : Consts) (hwf : K.wellFormed) :
    K.DX ≠ K.TOOL ∧ K.DY ≠ K.TOOL ∧ K.DY ≠ K.DX ∧
    K.DATA ≠ K.TOOL ∧ K.DATA ≠ K.DX ∧ K.DATA ≠ K.DY := by
  obtain ⟨hc, -⟩ := hwf
  simp only [List.nodup_cons, List.mem_cons, List.mem_singleton, List.not_mem_nil,
    or_false, not_or, List.nodup_nil, and_true, not_false_eq_true] at hc
  obtain ⟨⟨h1, h2, h3⟩, ⟨h4, h5⟩, h6⟩ := hc
  exact ⟨Ne.symm h1, Ne.symm h2, Ne.symm h4, Ne.symm h3, Ne.symm h5, Ne.symm h6⟩

/-- The tool constants that `obey` compares `s->tool` with are different
from NONE and COLOUR in a well-formed header. -/
theorem wf_tools (K : Consts) (hwf : K.wellFormed) :
    K.NONE ≠ K.LINE ∧ K.NONE ≠ K.BLOCK ∧ K.COLOUR ≠ K.LINE ∧ K.COLOUR ≠ K.BLOCK := by
  obtain ⟨-, hl⟩ := hwf
  simp only [List.nodup_cons, List.mem_cons, List.mem_singleton, List.not_mem_nil,
    or_false, not_or, List.nodup_nil, and_true, not_false_eq_true] at hl
  obtain ⟨⟨n1, -, n3, -⟩, ⟨l1, -⟩, ⟨c1, -⟩, -⟩ := hl
  exact ⟨n1, n3, Ne.symm l1, c1⟩

/-- The TOOL branch of `obey` ends with `s->data = 0`. -/
theorem obey_tool_data (K : Consts) (s : State) (b : byte)
    (hop : getOpcode b = K.TOOL) : (obey K s b).1.data = 0 := by
  simp [obey, hop]

/-- C3. After `obey` on a byte of class TOOL, whatever its operand, the
accumulator `data` is 0. -/
theorem obey_tool_data_zero (K : Consts) (s : State) (b : byte)
    (hop : getOpcode b = K.TOOL) : (obey K s b).1.data = 0 :=
  obey_tool_data K s b hop

theorem obey_tool_data_zero_witness :
    getOpcode (0x07 : byte) = specConsts.TOOL ∧
    (obey specConsts { newState with data := 66 } 0x07).1.data = 0 :=
  ⟨by decide, obey_tool_data_zero specConsts { newState with data := 66 } 0x07 (by decide)⟩

/-- C8. On a byte of class TOOL whose operand is none of the nine
sub-actions, `obey` issues no display call and changes no field of the state
except the accumulator, which becomes 0. -/
theorem obey_tool_unknown (K : Consts) (s : State) (b : byte)
    (hop : getOpcode b = K.TOOL)
    (hun : getOperand b ∉ [K.NONE, K.LINE, K.COLOUR, K.BLOCK, K.TARGETX, K.TARGETY,
      K.SHOW, K.PAUSE, K.NEXTFRAME]) :
    obey K s b = ({ s with data := 0 }, []) := by
  simp only [List.mem_cons, List.mem_singleton, List.not_mem_nil, or_false, not_or] at hun
  obtain ⟨h1, h2, h3, h4, h5, h6, h7, h8, h9⟩ := hun
  simp [obey, hop, h1, h2, h3, h4, h5, h6, h7, h8, h9]

theorem obey_tool_unknown_witness :
    getOpcode (0x3F : byte) = specConsts.TOOL ∧
    getOperand (0x3F : byte) ∉ [specConsts.NONE, specConsts.LINE, specConsts.COLOUR,
      specConsts.BLOCK, specConsts.TARGETX, specConsts.TARGETY, specConsts.SHOW,
      specConsts.PAUSE, specConsts.NEXTFRAME] ∧
    obey specConsts { newState with data := 66, tx := 3 } 0x3F
      = ({ newState with data := 0, tx := 3 }, []) :=
  ⟨by decide, by decide,
    obey_tool_unknown specConsts { newState with data := 66, tx := 3 } 0x3F
      (by decide) (by decide)⟩

/-- C5. With tool LINE, `obey` on a byte of class DY with operand `k`
issues the single display call `line(x, y, tx, ty + k)` on the field values
before the instruction; afterwards `ty` is `ty + k`, the cursor is the target
(`x = tx`, `y = ty + k`) and `tool`, `data`, `start`, `end` are unchanged. -/
theorem obey_dy_line (K : Consts) (hwf : K.wellFormed) (s : State) (b : byte)
    (hop : getOpcode b = K.DY) (ht : s.tool = K.LINE) :
    obey K s b =
      ({ s with ty := s.ty + getOperand b, x := s.tx, y := s.ty + getOperand b },
        [Call.line s.x s.y s.tx (s.ty + getOperand b)]) := by
  obtain ⟨-, h2, h3, -⟩ := wf_opcodes K hwf
  simp [obey, hop, ht, h2, h3]

theorem obey_dy_line_witness :
    specConsts.wellFormed ∧ getOpcode (0x85 : byte) = specConsts.DY ∧
    ({ newState with x := 1, y := 2, tx := 10, ty := 20 } : State).tool = specConsts.LINE ∧
    obey specConsts { newState with x := 1, y := 2, tx := 10, ty := 20 } 0x85 =
      ({ newState with x := 10, y := 25, tx := 10, ty := 25 }, [Call.line 1 2 10 25]) :=
  ⟨by decide, by decide, by decide,
    obey_dy_line specConsts (by decide) { newState with x := 1, y := 2, tx := 10, ty := 20 }
      0x85 (by decide) (by decide)⟩

/-- C6. With tool NONE or COLOUR, `obey` on a byte of class DY with operand
`k` issues no display call, sets `ty` to `ty + k` and moves the cursor to the
target (`x = tx`, `y = ty + k`). -/
theorem obey_dy_no_draw (K : Consts) (hwf : K.wellFormed) (s : State) (b : byte)
    (hop : getOpcode b = K.DY) (ht : s.tool = K.NONE ∨ s.tool = K.COLOUR) :
    obey K s b =
      ({ s with ty := s.ty + getOperand b, x := s.tx, y := s.ty + getOperand b }, []) := by
  obtain ⟨-, h2, h3, -⟩ := wf_opcodes K hwf
  obtain ⟨n1, n2, c1, c2⟩ := wf_tools K hwf
  rcases ht with ht | ht
  · simp [obey, hop, ht, h2, h3, n1, n2]
  · simp [obey, hop, ht, h2, h3, c1, c2]

theorem obey_dy_no_draw_witness :
    specConsts.wellFormed ∧ getOpcode (0xBF : byte) = specConsts.DY ∧
    (({ newState with tool := 0, tx := 10, ty := 20 } : State).tool = specConsts.NONE ∨
      ({ newState with tool := 0, tx := 10, ty := 20 } : State).tool = specConsts.COLOUR) ∧
    obey specConsts { newState with tool := 0, tx := 10, ty := 20 } 0xBF =
      ({ newState with tool := 0, x := 10, y := 19, tx := 10, ty := 19 }, []) :=
  ⟨by decide, by decide, by decide,
    obey_dy_no_draw specConsts (by decide) { newState with tool := 0, tx := 10, ty := 20 }
      0xBF (by decide) (by decide)⟩

/-- Shifting a non-negative accumulator by 6 and or-ing in a chunk below 64 is
`a * 64 + c`. -/
theorem lor_shift (a c : Nat) (hc : c < 64) :
    Int.lor (((a : Nat) : Int) <<< (6 : Int)) ((c : Nat) : Int) = ((a * 64 + c : Nat) : Int) := by
  have h1 : ((a : Nat) : Int) <<< (6 : Int) = ((a <<< 6 : Nat) : Int) :=
    Int.shiftLeft_coe_nat a 6
  rw [h1]
  show (((a <<< 6) ||| c : Nat) : Int) = _
  congr 1
  rw [Nat.shiftLeft_eq, Nat.mul_comm a (2 ^ 6)]
  exact (Nat.mul_add_lt_is_or (by simpa using hc) a).symm

theorem obey_data_step (K : Consts) (hwf : K.wellFormed) (s : State) (b : byte)
    (hop : getOpcode b = K.DATA) :
    obey K s b =
      ({ s with data := Int.lor (s.data <<< (6 : Int)) (Int.land ((b.val : Nat) : Int) 0x3F) },
        []) := by
  obtain ⟨-, -, -, h4, h5, h6⟩ := wf_opcodes K hwf
  have e : Int.land (getOperand b) 0x3F = Int.land ((b.val : Nat) : Int) 0x3F := by
    rw [land_operand, land_raw]
  simp only [obey, hop, h4, h5, h6, if_false, if_true, e]

theorem obey_data_nat (K : Consts) (hwf : K.wellFormed) (s : State) (b : byte)
    (hop : getOpcode b = K.DATA) (a : Nat) (ha : s.data = (a : Int)) :
    (obey K s b).1.data = ((a * 64 + chunk b : Nat) : Int) := by
  rw [obey_data_step K hwf s b hop]
  show Int.lor (s.data <<< (6 : Int)) (Int.land ((b.val : Nat) : Int) 0x3F) = _
  rw [land_raw, ha]
  exact lor_shift a (chunk b) (Nat.mod_lt _ (by decide))

theorem obeySeq_data (K : Consts) (hwf : K.wellFormed) (bs : List byte) :
    ∀ (s : State) (a : Nat), s.data = (a : Int) →
      (∀ b ∈ bs, getOpcode b = K.DATA) →
      (obeySeq K s bs).1.data
        = ((a * 64 ^ bs.length + base64Value (bs.map chunk) : Nat) : Int) := by
  induction bs with
  | nil => intro s a ha _; simp [obeySeq, base64Value, ha]
  | cons b bs ih =>
    intro s a ha hall
    have hb := hall b (List.mem_cons_self b bs)
    have hstep := obey_data_nat K hwf s b hb a ha
    have := ih (obey K s b).1 (a * 64 + chunk b) hstep
      (fun c hc => hall c (List.mem_cons_of_mem b hc))
    simp only [obeySeq, this, List.length_cons, List.map_cons, base64Value, List.length_map]
    congr 1
    ring

theorem base64Value_lt (cs : List Nat) (h : ∀ c ∈ cs, c < 64) :
    base64Value cs < 64 ^ cs.length := by
  induction cs with
  | nil => simp [base64Value]
  | cons c cs ih =>
    have hc := h c (List.mem_cons_self c cs)
    have := ih (fun d hd => h d (List.mem_cons_of_mem c hd))
    simp only [base64Value, List.length_cons, pow_succ]
    nlinarith

theorem obeySeq_append (K : Consts) (bs cs : List byte) :
    ∀ s : State, obeySeq K s (bs ++ cs) =
      ((obeySeq K (obeySeq K s bs).1 cs).1,
        (obeySeq K s bs).2 ++ (obeySeq K (obeySeq K s bs).1 cs).2) := by
  induction bs with
  | nil => intro s; simp [obeySeq]
  | cons b bs ih => intro s; simp [obeySeq, ih, List.append_assoc]

/-- C4. On a byte `b` of class DATA, `obey` sets the accumulator to
`(data << 6) | (b & 0x3F)` (the signed operand masked with `0x3F` is the raw
low six bits of `b`), changes no other field and issues no display call.
Starting from accumulator 0, DATA bytes `bs` (at most 5 of them) leave the
big-endian base-64 value of their chunks, a value below `2^30` (so that it
also fits a 32-bit machine word); for chunks `[1, 2]` that is 66, and after a
following byte of class TOOL the accumulator is 0. -/
theorem obey_data_accumulates (K : Consts) (hwf : K.wellFormed) (s : State) (b : byte)
    (hop : getOpcode b = K.DATA)
    (s0 : State) (h0 : s0.data = 0) (bs : List byte)
    (hbs : ∀ c ∈ bs, getOpcode c = K.DATA) (hlen : bs.length ≤ 5)
    (t : byte) (ht : getOpcode t = K.TOOL) :
    obey K s b =
      ({ s with data := Int.lor (s.data <<< (6 : Int)) (Int.land ((b.val : Nat) : Int) 0x3F) },
        []) ∧
    Int.land (getOperand b) 0x3F = Int.land ((b.val : Nat) : Int) 0x3F ∧
    (obeySeq K s0 bs).1.data = ((base64Value (bs.map chunk) : Nat) : Int) ∧
    base64Value (bs.map chunk) < 2 ^ 30 ∧
    (bs.map chunk = [1, 2] →
      (obeySeq K s0 bs).1.data = 66 ∧ (obeySeq K s0 (bs ++ [t])).1.data = 0) := by
  have hseq : (obeySeq K s0 bs).1.data = ((base64Value (bs.map chunk) : Nat) : Int) := by
    have := obeySeq_data K hwf bs s0 0 (by simpa using h0) hbs
    simpa using this
  have hlt : base64Value (bs.map chunk) < 2 ^ 30 := by
    have h1 := base64Value_lt (bs.map chunk) (by
      intro c hc
      obtain ⟨d, -, rfl⟩ := List.mem_map.mp hc
      exact Nat.mod_lt _ (by decide))
    rw [List.length_map] at h1
    calc base64Value (bs.map chunk) < 64 ^ bs.length := h1
      _ ≤ 64 ^ 5 := Nat.pow_le_pow_right (by decide) hlen
      _ = 2 ^ 30 := by norm_num
  refine ⟨obey_data_step K hwf s b hop, by rw [land_operand, land_raw], hseq, hlt, ?_⟩
  intro hch
  refine ⟨by rw [hseq, hch]; simp [base64Value], ?_⟩
  rw [obeySeq_append]
  simp only [obeySeq]
  exact obey_tool_data K _ t ht

theorem obey_data_accumulates_witness :
    specConsts.wellFormed ∧ getOpcode (0xC1 : byte) = specConsts.DATA ∧
    getOpcode (0x04 : byte) = specConsts.TOOL ∧
    (obeySeq specConsts newState [0xC1, 0xC2]).1.data = 66 ∧
    (obeySeq specConsts newState ([0xC1, 0xC2] ++ [0x04])).1.data = 0 :=
  ⟨by decide, by decide, by decide,
    (obey_data_accumulates specConsts (by decide) newState 0xC1 (by decide) newState rfl
      [0xC1, 0xC2] (by decide) (by decide) 0x04 (by decide)).2.2.2.2 (by decide)⟩

/-! ## The loop of `processSketch` -/

theorem obey_start (K : Consts) (s : State) (b : byte) :
    (obey K s b).1.start = s.start := by
  unfold obey
  by_cases h1 : getOpcode b = K.TOOL
  · simp only [h1, if_true]
    split_ifs <;> rfl
  · simp only [h1, if_false]
    split_ifs <;> rfl

/-- Only a NEXTFRAME instruction touches the flag `end`. -/
theorem obey_end_of_not_nextFrame (K : Consts) (s : State) (b : byte)
    (h : ¬ isNextFrame K b) : (obey K s b).1.«end» = s.«end» := by
  unfold obey
  by_cases h1 : getOpcode b = K.TOOL
  · simp only [h1, if_true]
    split_ifs with _ _ _ _ _ _ _ _ h9
    all_goals first | rfl | exact absurd ⟨h1, h9⟩ h
  · simp only [h1, if_false]
    split_ifs <;> rfl

theorem wf_nextFrame (K : Consts) (hwf : K.wellFormed) :
    K.NEXTFRAME ≠ K.NONE ∧ K.NEXTFRAME ≠ K.LINE ∧ K.NEXTFRAME ≠ K.COLOUR ∧
    K.NEXTFRAME ≠ K.BLOCK ∧ K.NEXTFRAME ≠ K.TARGETX ∧ K.NEXTFRAME ≠ K.TARGETY ∧
    K.NEXTFRAME ≠ K.SHOW ∧ K.NEXTFRAME ≠ K.PAUSE := by
  obtain ⟨-, hl⟩ := hwf
  simp only [List.nodup_cons, List.mem_cons, List.mem_singleton, List.not_mem_nil,
    or_false, not_or, List.nodup_nil, and_true, not_false_eq_true] at hl
  obtain ⟨⟨-, -, -, -, -, -, -, a1⟩, ⟨-, -, -, -, -, -, a2⟩, ⟨-, -, -, -, -, a3⟩,
    ⟨-, -, -, -, a4⟩, ⟨-, -, -, a5⟩, ⟨-, -, a6⟩, ⟨-, a7⟩, a8⟩ := hl
  exact ⟨Ne.symm a1, Ne.symm a2, Ne.symm a3, Ne.symm a4, Ne.symm a5, Ne.symm a6,
    Ne.symm a7, Ne.symm a8⟩

/-- A NEXTFRAME instruction sets the flag `end`. -/
theorem obey_end_of_nextFrame (K : Consts) (hwf : K.wellFormed) (s : State) (b : byte)
    (h : isNextFrame K b) : (obey K s b).1.«end» = true := by
  obtain ⟨h1, h2⟩ := h
  obtain ⟨a1, a2, a3, a4, a5, a6, a7, a8⟩ := wf_nextFrame K hwf
  simp [obey, h1, h2, a1, a2, a3, a4, a5, a6, a7, a8]

theorem frameLoop_oob (K : Consts) (store : List byte) (fuel i : Nat) (s : State)
    (h : store.length ≤ i) :
    frameLoop K store fuel i s = { state := s, calls := [], applied := [] } := by
  cases fuel with
  | zero => rfl
  | succ n => simp [frameLoop, Nat.not_lt.mpr h]

theorem frameLoop_stop (K : Consts) (store : List byte) (fuel i : Nat) (s : State)
    (h : i < store.length) (he : (obey K s (store[i])).1.«end» = true) :
    frameLoop K store (fuel + 1) i s =
      { state := { (obey K s (store[i])).1 with start := i + 1 },
        calls := (obey K s (store[i])).2, applied := [i] } := by
  simp [frameLoop, h, he]

theorem frameLoop_cont (K : Consts) (store : List byte) (fuel i : Nat) (s : State)
    (h : i < store.length) (he : (obey K s (store[i])).1.«end» = false) :
    frameLoop K store (fuel + 1) i s =
      { state := (frameLoop K store fuel (i + 1) (obey K s (store[i])).1).state,
        calls := (obey K s (store[i])).2 ++
          (frameLoop K store fuel (i + 1) (obey K s (store[i])).1).calls,
        applied := i ::
          (frameLoop K store fuel (i + 1) (obey K s (store[i])).1).applied } := by
  simp [frameLoop, h, he]

/-- The loop applies consecutive indices, starting at its first index and
staying inside the stream. -/
theorem frameLoop_applied (K : Consts) (store : List byte) :
    ∀ (fuel i : Nat) (s : State), ∃ n,
      (frameLoop K store fuel i s).applied = List.range' i n ∧
      n ≤ fuel ∧ (n = 0 ∨ i + n ≤ store.length) := by
  intro fuel
  induction fuel with
  | zero => intro i s; exact ⟨0, rfl, le_refl _, Or.inl rfl⟩
  | succ fuel ih =>
    intro i s
    by_cases h : i < store.length
    · cases he : (obey K s (store[i])).1.«end» with
      | true =>
        rw [frameLoop_stop K store fuel i s h he]
        exact ⟨1, rfl, by omega, Or.inr (by omega)⟩
      | false =>
        rw [frameLoop_cont K store fuel i s h he]
        obtain ⟨n, hn, hf, hb⟩ := ih (i + 1) (obey K s (store[i])).1
        refine ⟨n + 1, ?_, by omega, Or.inr (by omega)⟩
        simp only [hn, List.range'_succ]
    · rw [frameLoop_oob K store _ i s (by omega)]
      exact ⟨0, rfl, by omega, Or.inl rfl⟩

theorem frameLoop_applied_lt (K : Consts) (store : List byte) (fuel i : Nat) (s : State) :
    ∀ j ∈ (frameLoop K store fuel i s).applied, i ≤ j ∧ j < store.length := by
  obtain ⟨n, hn, -, hb⟩ := frameLoop_applied K store fuel i s
  intro j hj
  rw [hn, List.mem_range'_1] at hj
  rcases hb with hb | hb
  · omega
  · omega

/-- The display calls of the loop are those of `obey` on the applied bytes, one
after the other, and so is the state it leaves, up to the resume offset. -/
theorem frameLoop_trace (K : Consts) (store : List byte) :
    ∀ (fuel i : Nat) (s : State),
      (frameLoop K store fuel i s).calls =
        (obeySeq K s (appliedBytes store (frameLoop K store fuel i s).applied)).2 ∧
      (frameLoop K store fuel i s).state =
        { (obeySeq K s (appliedBytes store (frameLoop K store fuel i s).applied)).1 with
          start := (frameLoop K store fuel i s).state.start } := by
  intro fuel
  induction fuel with
  | zero => intro i s; simp [frameLoop, appliedBytes, obeySeq]
  | succ fuel ih =>
    intro i s
    by_cases h : i < store.length
    · have hg : store[i]? = some store[i] := List.getElem?_eq_getElem h
      cases he : (obey K s (store[i])).1.«end» with
      | true =>
        rw [frameLoop_stop K store fuel i s h he]
        simp [appliedBytes, hg, obeySeq]
      | false =>
        rw [frameLoop_cont K store fuel i s h he]
        obtain ⟨h1, h2⟩ := ih (i + 1) (obey K s (store[i])).1
        simp only [appliedBytes, List.filterMap_cons, hg, obeySeq] at h1 h2 ⊢
        exact ⟨by rw [← h1], h2⟩
    · rw [frameLoop_oob K store _ i s (by omega)]
      simp [appliedBytes, obeySeq]

/-- Without a NEXTFRAME instruction from index `i` on, the loop applies every
byte from `i` to the end of the stream and leaves `start` and `end` alone. -/
theorem frameLoop_no_nextFrame (K : Consts) (store : List byte) :
    ∀ (fuel i : Nat) (s : State), s.«end» = false →
      (∀ j b, i ≤ j → store[j]? = some b → ¬ isNextFrame K b) →
      store.length - i ≤ fuel →
      (frameLoop K store fuel i s).applied = List.range' i (store.length - i) ∧
      (frameLoop K store fuel i s).state.start = s.start ∧
      (frameLoop K store fuel i s).state.«end» = false := by
  intro fuel
  induction fuel with
  | zero =>
    intro i s he _ hf
    have : store.length - i = 0 := by omega
    simp [frameLoop, this, he]
  | succ fuel ih =>
    intro i s he hno hf
    by_cases h : i < store.length
    · have hb : ¬ isNextFrame K store[i] :=
        hno i store[i] (le_refl _) (List.getElem?_eq_getElem h)
      have he2 : (obey K s store[i]).1.«end» = false := by
        rw [obey_end_of_not_nextFrame K s _ hb, he]
      rw [frameLoop_cont K store fuel i s h he2]
      obtain ⟨h1, h2, h3⟩ := ih (i + 1) (obey K s store[i]).1 he2
        (fun j b hj => hno j b (by omega)) (by omega)
      refine ⟨?_, by rw [h2, obey_start], h3⟩
      have : store.length - i = (store.length - (i + 1)) + 1 := by omega
      simp only [h1, this, List.range'_succ]
    · rw [frameLoop_oob K store _ i s (by omega)]
      have : store.length - i = 0 := by omega
      simp [this, he]

/-- When the first NEXTFRAME instruction at or after the first index `i0` is
byte `i`, the loop applies the bytes `i0..i`, sets `start` to `i + 1` and
stops with `end` set. -/
theorem frameLoop_first_nextFrame (K : Consts) (hwf : K.wellFormed) (store : List byte)
    (i : Nat) (hi : i < store.length) (hnf : isNextFrame K store[i]) :
    ∀ (fuel i0 : Nat) (s : State), s.«end» = false → i0 ≤ i →
      (∀ j b, i0 ≤ j → j < i → store[j]? = some b → ¬ isNextFrame K b) →
      i + 1 - i0 ≤ fuel →
      (frameLoop K store fuel i0 s).applied = List.range' i0 (i + 1 - i0) ∧
      (frameLoop K store fuel i0 s).state.start = i + 1 ∧
      (frameLoop K store fuel i0 s).state.«end» = true := by
  intro fuel
  induction fuel with
  | zero => intro i0 s _ h0 _ hf; omega
  | succ fuel ih =>
    intro i0 s he h0 hno hf
    have h : i0 < store.length := by omega
    rcases Nat.eq_or_lt_of_le h0 with heq | hlt
    · subst heq
      have he2 := obey_end_of_nextFrame K hwf s _ hnf
      rw [frameLoop_stop K store fuel i0 s h he2]
      have : i0 + 1 - i0 = 1 := by omega
      simp [this, he2]
    · have hb : ¬ isNextFrame K store[i0] :=
        hno i0 store[i0] (le_refl _) hlt (List.getElem?_eq_getElem h)
      have he2 : (obey K s store[i0]).1.«end» = false := by
        rw [obey_end_of_not_nextFrame K s _ hb, he]
      rw [frameLoop_cont K store fuel i0 s h he2]
      obtain ⟨h1, h2, h3⟩ := ih (i0 + 1) (obey K s store[i0]).1 he2 (by omega)
        (fun j b hj => hno j b (by omega)) (by omega)
      refine ⟨?_, h2, h3⟩
      have : i + 1 - i0 = (i + 1 - (i0 + 1)) + 1 := by omega
      simp only [h1, this, List.range'_succ]

/-- The resume offset at the end of the loop, entered with `end` clear: either
the loop ran out of bytes, and `start` and `end` are as on entry, or it stopped
at a byte `j` that set `end`, and `start` is `j + 1`. -/
theorem frameLoop_start (K : Consts) (store : List byte) :
    ∀ (fuel i : Nat) (s : State), s.«end» = false →
      ((frameLoop K store fuel i s).state.«end» = false ∧
        (frameLoop K store fuel i s).state.start = s.start) ∨
      ((frameLoop K store fuel i s).state.«end» = true ∧
        ∃ j, (frameLoop K store fuel i s).applied.getLast? = some j ∧
          (frameLoop K store fuel i s).state.start = j + 1) := by
  intro fuel
  induction fuel with
  | zero => intro i s he; exact Or.inl ⟨he, rfl⟩
  | succ fuel ih =>
    intro i s he
    by_cases h : i < store.length
    · cases he2 : (obey K s store[i]).1.«end» with
      | true =>
        rw [frameLoop_stop K store fuel i s h he2]
        exact Or.inr ⟨he2, i, rfl, rfl⟩
      | false =>
        rw [frameLoop_cont K store fuel i s h he2]
        rcases ih (i + 1) (obey K s store[i]).1 he2 with ⟨h1, h2⟩ | ⟨h1, j, h2, h3⟩
        · exact Or.inl ⟨h1, by rw [h2, obey_start]⟩
        · refine Or.inr ⟨h1, j, ?_, h3⟩
          show (i :: (frameLoop K store fuel (i + 1) (obey K s store[i]).1).applied).getLast?
            = some j
          cases hl : (frameLoop K store fuel (i + 1) (obey K s store[i]).1).applied with
          | nil => rw [hl] at h2; simp at h2
          | cons a l => rw [hl] at h2; rw [List.getLast?_cons_cons]; exact h2
    · rw [frameLoop_oob K store _ i s (by omega)]
      exact Or.inl ⟨he, rfl⟩

theorem appliedBytes_length (K : Consts) (store : List byte) (fuel i : Nat) (s : State) :
    (appliedBytes store (frameLoop K store fuel i s).applied).length
      = (frameLoop K store fuel i s).applied.length := by
  have h := frameLoop_applied_lt K store fuel i s
  generalize (frameLoop K store fuel i s).applied = l at h
  induction l with
  | nil => rfl
  | cons a l ih =>
    have ha := (h a (List.mem_cons_self a l)).2
    have := ih (fun j hj => h j (List.mem_cons_of_mem a hj))
    simp only [appliedBytes, List.filterMap_cons, List.getElem?_eq_getElem ha,
      List.length_cons] at this ⊢
    rw [this]

theorem frameLoop_head (K : Consts) (store : List byte) (fuel i : Nat) (s : State)
    (h : i < store.length) :
    (frameLoop K store (fuel + 1) i s).applied.head? = some i := by
  cases he : (obey K s store[i]).1.«end» with
  | true => rw [frameLoop_stop K store fuel i s h he]; rfl
  | false => rw [frameLoop_cont K store fuel i s h he]; rfl

/-! ## `processSketch` -/

theorem processSketch_some (K : Consts) (store : List byte) (key : Int) (s : State) :
    processSketch K store key (some s) =
      { ret := decide (key ≠ 0),
        state := some
          { (frameLoop K store (store.length - startIndex s) (startIndex s)
              { s with «end» := false }).state with
            x := 0, y := 0, tx := 0, ty := 0, tool := K.LINE },
        calls := (frameLoop K store (store.length - startIndex s) (startIndex s)
          { s with «end» := false }).calls ++ [Call.show],
        applied := (frameLoop K store (store.length - startIndex s) (startIndex s)
          { s with «end» := false }).applied } := rfl

/-- C2 (amended). When byte `i` is the first NEXTFRAME instruction at or
after the index at which a pass starts, the pass applies the bytes up to `i`
and none beyond, and sets `start` to `i + 1`. The next call on the same stream
starts at `i + 1`: its first applied byte is byte `i + 1` when the stream has
one, it applies nothing when byte `i` was the last byte, and in no case does it
apply a byte of index below `i + 1`. -/
theorem processSketch_nextFrame_resume (K : Consts) (hwf : K.wellFormed)
    (store : List byte) (key1 key2 : Int) (s : State) (i : Nat) (hi : i < store.length)
    (hst : startIndex s ≤ i) (hnf : isNextFrame K store[i])
    (hfirst : ∀ j b, startIndex s ≤ j → j < i → store[j]? = some b → ¬ isNextFrame K b) :
    (processSketch K store key1 (some s)).applied
      = List.range' (startIndex s) (i + 1 - startIndex s) ∧
    (∀ j ∈ (processSketch K store key1 (some s)).applied, j ≤ i) ∧
    (processSketch K store key1 (some s)).state.map State.start = some (i + 1) ∧
    (i + 1 < store.length →
      (processSketch K store key2 (processSketch K store key1 (some s)).state).applied.head?
        = some (i + 1)) ∧
    (store.length ≤ i + 1 →
      (processSketch K store key2 (processSketch K store key1 (some s)).state).applied = []) ∧
    (∀ j ∈ (processSketch K store key2 (processSketch K store key1 (some s)).state).applied,
      i + 1 ≤ j) := by
  obtain ⟨h1, h2, h3⟩ := frameLoop_first_nextFrame K hwf store i hi hnf
    (store.length - startIndex s) (startIndex s) { s with «end» := false } rfl hst hfirst
    (by omega)
  have hset : ∀ t : State, t.«end» = true → startIndex t = t.start :=
    fun t ht => by simp [startIndex, ht]
  have hstart : startIndex
      { (frameLoop K store (store.length - startIndex s) (startIndex s)
          { s with «end» := false }).state with
        x := 0, y := 0, tx := 0, ty := 0, tool := K.LINE } = i + 1 :=
    (hset { (frameLoop K store (store.length - startIndex s) (startIndex s)
          { s with «end» := false }).state with
        x := 0, y := 0, tx := 0, ty := 0, tool := K.LINE } h3).trans h2
  simp only [processSketch_some, Option.map_some', hstart]
  refine ⟨h1, ?_, by rw [h2], ?_, ?_, ?_⟩
  · intro j hj
    rw [h1, List.mem_range'_1] at hj
    omega
  · intro hlt
    obtain ⟨n, hn⟩ : ∃ n, store.length - (i + 1) = n + 1 := ⟨store.length - (i + 1) - 1, by omega⟩
    rw [hn]
    exact frameLoop_head K store n (i + 1) _ hlt
  · intro hle
    rw [frameLoop_oob K store _ (i + 1) _ hle]
  · intro j hj
    exact (frameLoop_applied_lt K store _ _ _ j hj).1

theorem processSketch_nextFrame_resume_witness :
    specConsts.wellFormed ∧ isNextFrame specConsts (0x08 : byte) ∧
    (processSketch specConsts [0x45, 0x08, 0x85, 0x08] 0 (some newState)).applied = [0, 1] ∧
    (processSketch specConsts [0x45, 0x08, 0x85, 0x08] 0
      (processSketch specConsts [0x45, 0x08, 0x85, 0x08] 0 (some newState)).state).applied.head?
      = some 2 :=
  have hfirst : ∀ (j : Nat) (b : byte), startIndex newState ≤ j → j < 1 →
      ([0x45, 0x08, 0x85, 0x08] : List byte)[j]? = some b → ¬ isNextFrame specConsts b := by
    intro j b _ hj hb
    have hj0 : j = 0 := by omega
    subst hj0
    simp only [List.getElem?_cons_zero, Option.some.injEq] at hb
    subst hb
    decide
  ⟨by decide, by decide,
    (processSketch_nextFrame_resume specConsts (by decide) [0x45, 0x08, 0x85, 0x08] 0 0
      newState 1 (by decide) (by decide) (by decide) hfirst).1,
    (processSketch_nextFrame_resume specConsts (by decide) [0x45, 0x08, 0x85, 0x08] 0 0
      newState 1 (by decide) (by decide) (by decide) hfirst).2.2.2.1 (by decide)⟩

/-- C2 (as stated, refuted). On the one-byte stream `[NEXTFRAME]` from the
initial state, byte 0 is the first NEXTFRAME instruction of the first pass,
which sets `start` to 1; the next call applies no byte at all, so it does not
apply byte 1 as its first instruction. -/
theorem processSketch_nextFrame_last_byte :
    specConsts.wellFormed ∧ startIndex newState ≤ 0 ∧
    isNextFrame specConsts (0x08 : byte) ∧
    (processSketch specConsts [0x08] 0 (some newState)).applied = [0] ∧
    (processSketch specConsts [0x08] 0 (some newState)).state.map State.start = some 1 ∧
    (processSketch specConsts [0x08] 0
      (processSketch specConsts [0x08] 0 (some newState)).state).applied = [] ∧
    ¬ ((processSketch specConsts [0x08] 0
      (processSketch specConsts [0x08] 0 (some newState)).state).applied.head? = some 1) := by
  decide

/-- C7. On a stream without a NEXTFRAME instruction, from a state whose
resume offset is 0, a call of `processSketch` gives every byte of the stream
to `obey`, in index order `0..len-1`, once each; the resume offset is still 0
afterwards, so the same holds for the call after it. -/
theorem processSketch_replays_all (K : Consts) (store : List byte) (key : Int) (s : State)
    (hno : ∀ b ∈ store, ¬ isNextFrame K b) (hs : s.start = 0) :
    (processSketch K store key (some s)).applied = List.range store.length ∧
    appliedBytes store (processSketch K store key (some s)).applied = store ∧
    (processSketch K store key (some s)).state.map State.start = some 0 ∧
    ∀ key2 : Int,
      (processSketch K store key2 (processSketch K store key (some s)).state).applied
        = List.range store.length := by
  have hsi : ∀ t : State, t.start = 0 → startIndex t = 0 := by
    intro t ht
    unfold startIndex
    split_ifs
    · exact ht
    · rfl
  have hloop : ∀ t : State, t.«end» = false →
      (frameLoop K store store.length 0 t).applied = List.range store.length ∧
      (frameLoop K store store.length 0 t).state.start = t.start := by
    intro t ht
    obtain ⟨h1, h2, -⟩ := frameLoop_no_nextFrame K store store.length 0 t ht
      (fun j b _ hb => hno b (List.getElem?_mem hb)) (by omega)
    exact ⟨by rw [h1, List.range_eq_range']; rfl, h2⟩
  obtain ⟨h1, h2⟩ := hloop { s with «end» := false } rfl
  have hbytes : appliedBytes store (List.range store.length) = store := by
    apply List.ext_getElem?
    intro n
    simp only [appliedBytes]
    by_cases hn : n < store.length
    · rw [List.getElem?_eq_getElem hn]
      have : List.filterMap (fun i => store[i]?) (List.range store.length)
          = List.map (fun i => store.getD i 0) (List.range store.length) := by
        rw [← List.filterMap_eq_map]
        apply List.filterMap_congr
        intro i hi
        have hi2 : i < store.length := List.mem_range.mp hi
        simp [List.getElem?_eq_getElem hi2, List.getD_eq_getElem _ _ hi2]
      rw [this]
      simp [hn, List.getD_eq_getElem _ _ hn]
    · have hlen : (List.filterMap (fun i => store[i]?) (List.range store.length)).length
          ≤ store.length := by
        calc _ ≤ (List.range store.length).length := List.length_filterMap_le _ _
          _ = store.length := List.length_range _
      rw [List.getElem?_eq_none (by omega), List.getElem?_eq_none (by omega)]
  have hst2 : ({ (frameLoop K store store.length 0 { s with «end» := false }).state with
      x := 0, y := 0, tx := 0, ty := 0, tool := K.LINE } : State).start = 0 := h2.trans hs
  simp only [processSketch_some, hsi s hs, Nat.sub_zero, Option.map_some', hsi _ hst2]
  refine ⟨h1, by rw [h1, hbytes], by rw [h2, hs], ?_⟩
  intro _
  exact (hloop _ rfl).1

theorem processSketch_replays_all_witness :
    (∀ b ∈ ([0xC1, 0x45, 0x85] : List byte), ¬ isNextFrame specConsts b) ∧
    (processSketch specConsts [0xC1, 0x45, 0x85] 0 (some newState)).applied = [0, 1, 2] :=
  ⟨by decide,
    (processSketch_replays_all specConsts [0xC1, 0x45, 0x85] 0 newState (by decide) rfl).1⟩

/-- C9. After `processSketch` returns, `x = y = tx = ty = 0` and
`tool = LINE`, while the accumulator and the resume offset are those the loop
left: the clean-up does not reset them. The accumulator is the one `obey`
produced on the applied bytes; the resume offset is the one on entry, or
`j + 1` when the pass stopped at the NEXTFRAME byte `j`, the last one applied. -/
theorem processSketch_cleanup (K : Consts) (store : List byte) (key : Int) (s : State) :
    ∃ s2, (processSketch K store key (some s)).state = some s2 ∧
      s2.x = 0 ∧ s2.y = 0 ∧ s2.tx = 0 ∧ s2.ty = 0 ∧ s2.tool = K.LINE ∧
      s2.data = (frameLoop K store (store.length - startIndex s) (startIndex s)
        { s with «end» := false }).state.data ∧
      s2.start = (frameLoop K store (store.length - startIndex s) (startIndex s)
        { s with «end» := false }).state.start ∧
      s2.data = (obeySeq K { s with «end» := false }
        (appliedBytes store (processSketch K store key (some s)).applied)).1.data ∧
      (s2.start = s.start ∨
        ∃ j, (processSketch K store key (some s)).applied.getLast? = some j ∧
          s2.start = j + 1) := by
  refine ⟨_, rfl, rfl, rfl, rfl, rfl, rfl, rfl, rfl, ?_, ?_⟩
  · have h := (frameLoop_trace K store (store.length - startIndex s) (startIndex s)
      { s with «end» := false }).2
    have hd := congrArg State.data h
    exact hd
  · rcases frameLoop_start K store (store.length - startIndex s) (startIndex s)
      { s with «end» := false } rfl with ⟨-, h2⟩ | ⟨-, j, h2, h3⟩
    · exact Or.inl h2
    · exact Or.inr ⟨j, h2, h3⟩

/-- C10. The display calls of one `processSketch` pass are the calls that
`obey` issues on the applied bytes, in order, followed by one `show` issued by
the pass itself, whatever the applied bytes are and however the pass ended. Every
applied index is inside the stream. -/
theorem processSketch_trace (K : Consts) (store : List byte) (key : Int) (s : State) :
    (processSketch K store key (some s)).calls =
      (obeySeq K { s with «end» := false }
        (appliedBytes store (processSketch K store key (some s)).applied)).2 ++ [Call.show] ∧
    (∀ j ∈ (processSketch K store key (some s)).applied, j < store.length) ∧
    (appliedBytes store (processSketch K store key (some s)).applied).length =
      (processSketch K store key (some s)).applied.length := by
  simp only [processSketch_some]
  refine ⟨?_, ?_, appliedBytes_length K store _ _ _⟩
  · rw [← (frameLoop_trace K store (store.length - startIndex s) (startIndex s)
      { s with «end» := false }).1]
  · intro j hj
    exact (frameLoop_applied_lt K store _ _ _ j hj).2

/-! ## Opcode classes and the remaining branches of `obey` -/

/-- In a well-formed header every `case` label of the `switch` in `obey`
differs from the labels before it. -/
theorem wf_labels (K : Consts) (hwf : K.wellFormed) :
    K.LINE ≠ K.NONE ∧
    (K.COLOUR ≠ K.NONE ∧ K.COLOUR ≠ K.LINE) ∧
    (K.BLOCK ≠ K.NONE ∧ K.BLOCK ≠ K.LINE ∧ K.BLOCK ≠ K.COLOUR) ∧
    (K.TARGETX ≠ K.NONE ∧ K.TARGETX ≠ K.LINE ∧ K.TARGETX ≠ K.COLOUR ∧
      K.TARGETX ≠ K.BLOCK) ∧
    (K.TARGETY ≠ K.NONE ∧ K.TARGETY ≠ K.LINE ∧ K.TARGETY ≠ K.COLOUR ∧
      K.TARGETY ≠ K.BLOCK ∧ K.TARGETY ≠ K.TARGETX) ∧
    (K.SHOW ≠ K.NONE ∧ K.SHOW ≠ K.LINE ∧ K.SHOW ≠ K.COLOUR ∧ K.SHOW ≠ K.BLOCK ∧
      K.SHOW ≠ K.TARGETX ∧ K.SHOW ≠ K.TARGETY) ∧
    (K.PAUSE ≠ K.NONE ∧ K.PAUSE ≠ K.LINE ∧ K.PAUSE ≠ K.COLOUR ∧ K.PAUSE ≠ K.BLOCK ∧
      K.PAUSE ≠ K.TARGETX ∧ K.PAUSE ≠ K.TARGETY ∧ K.PAUSE ≠ K.SHOW) := by
  obtain ⟨-, hl⟩ := hwf
  simp only [List.nodup_cons, List.mem_cons, List.mem_singleton, List.not_mem_nil,
    or_false, not_or, List.nodup_nil, and_true, not_false_eq_true] at hl
  obtain ⟨⟨n1, n2, n3, n4, n5, n6, n7, -⟩, ⟨l2, l3, l4, l5, l6, l7, -⟩,
    ⟨c3, c4, c5, c6, c7, -⟩, ⟨b4, b5, b6, b7, -⟩, ⟨x5, x6, x7, -⟩, ⟨y6, y7, -⟩,
    ⟨s7, -⟩, -⟩ := hl
  exact ⟨Ne.symm n1, ⟨Ne.symm n2, Ne.symm l2⟩, ⟨Ne.symm n3, Ne.symm l3, Ne.symm c3⟩,
    ⟨Ne.symm n4, Ne.symm l4, Ne.symm c4, Ne.symm b4⟩,
    ⟨Ne.symm n5, Ne.symm l5, Ne.symm c5, Ne.symm b5, Ne.symm x5⟩,
    ⟨Ne.symm n6, Ne.symm l6, Ne.symm c6, Ne.symm b6, Ne.symm x6, Ne.symm y6⟩,
    ⟨Ne.symm n7, Ne.symm l7, Ne.symm c7, Ne.symm b7, Ne.symm x7, Ne.symm y7, Ne.symm s7⟩⟩

theorem getOpcode_div : ∀ b : byte, getOpcode b = ((b.val / 64 : Nat) : Int) := by
  decide

/-- C14. For every byte `b`, `getOpcode b` is `b div 64`, one of the values
`0..3`, and two bytes with the same two most-significant bits have the same
opcode whatever their low six bits. When the four opcode constants of the
header are pairwise different values in `0..3`, exactly one of the four
conditions `opcode == TOOL`, `== DX`, `== DY`, `== DATA` of `obey` holds for
each byte. -/
theorem getOpcode_spec (K : Consts) (hwf : K.wellFormed)
    (hrange : ∀ c ∈ [K.TOOL, K.DX, K.DY, K.DATA], 0 ≤ c ∧ c ≤ 3) (b : byte) :
    getOpcode b = ((b.val / 64 : Nat) : Int) ∧
    0 ≤ getOpcode b ∧ getOpcode b ≤ 3 ∧
    (∀ b2 : byte, b2.val / 64 = b.val / 64 → getOpcode b2 = getOpcode b) ∧
    (getOpcode b = K.TOOL ∨ getOpcode b = K.DX ∨ getOpcode b = K.DY ∨
      getOpcode b = K.DATA) ∧
    ¬ (getOpcode b = K.TOOL ∧ getOpcode b = K.DX) ∧
    ¬ (getOpcode b = K.TOOL ∧ getOpcode b = K.DY) ∧
    ¬ (getOpcode b = K.TOOL ∧ getOpcode b = K.DATA) ∧
    ¬ (getOpcode b = K.DX ∧ getOpcode b = K.DY) ∧
    ¬ (getOpcode b = K.DX ∧ getOpcode b = K.DATA) ∧
    ¬ (getOpcode b = K.DY ∧ getOpcode b = K.DATA) := by
  obtain ⟨h1, h2, h3, h4, h5, h6⟩ := wf_opcodes K hwf
  have hT := hrange K.TOOL (by simp)
  have hX := hrange K.DX (by simp)
  have hY := hrange K.DY (by simp)
  have hD := hrange K.DATA (by simp)
  have hb := getOpcode_div b
  have hlt : b.val < 256 := b.isLt
  refine ⟨hb, by omega, by omega, ?_, by omega, by omega, by omega, by omega, by omega,
    by omega, by omega⟩
  intro b2 h
  rw [hb, getOpcode_div b2, h]

theorem getOpcode_spec_witness :
    specConsts.wellFormed ∧
    (∀ c ∈ [specConsts.TOOL, specConsts.DX, specConsts.DY, specConsts.DATA], 0 ≤ c ∧ c ≤ 3) ∧
    getOpcode (0x85 : byte) = 2 ∧ getOpcode (0x85 : byte) = specConsts.DY :=
  ⟨by decide, by decide,
    (getOpcode_spec specConsts (by decide) (by decide) 0x85).1,
    by decide⟩

/-- C15. With tool BLOCK, `obey` on a byte of class DY with operand `k` issues
the single display call `block(x, y, tx - x, (ty + k) - y)`, on the cursor
before the instruction and the updated target, with width and height passed as
they are (no clamping), and then sets the cursor to the target (`x = tx`,
`y = ty + k`). -/
theorem obey_dy_block (K : Consts) (hwf : K.wellFormed) (s : State) (b : byte)
    (hop : getOpcode b = K.DY) (ht : s.tool = K.BLOCK) :
    obey K s b =
      ({ s with ty := s.ty + getOperand b, x := s.tx, y := s.ty + getOperand b },
        [Call.block s.x s.y (s.tx - s.x) (s.ty + getOperand b - s.y)]) := by
  obtain ⟨-, h2, h3, -⟩ := wf_opcodes K hwf
  obtain ⟨-, -, ⟨-, hbl, -⟩, -⟩ := wf_labels K hwf
  simp [obey, hop, ht, h2, h3, hbl]

theorem obey_dy_block_witness :
    specConsts.wellFormed ∧ getOpcode (0xBD : byte) = specConsts.DY ∧
    ({ newState with tool := 3, x := 10, y := 2, tx := 4, ty := 1 } : State).tool
      = specConsts.BLOCK ∧
    obey specConsts { newState with tool := 3, x := 10, y := 2, tx := 4, ty := 1 } 0xBD =
      ({ newState with tool := 3, x := 4, y := -2, tx := 4, ty := -2 },
        [Call.block 10 2 (-6) (-4)]) :=
  ⟨by decide, by decide, by decide,
    obey_dy_block specConsts (by decide)
      { newState with tool := 3, x := 10, y := 2, tx := 4, ty := 1 } 0xBD
      (by decide) (by decide)⟩

/-- C16. With accumulator `v`, a COLOUR instruction of class TOOL issues the
single display call `colour(v)` and sets `tool` to COLOUR; a PAUSE instruction
of class TOOL issues the single display call `pause(v)` and leaves `tool`
alone. The value passed is the accumulator before the instruction, which is
reset to 0 after the call; `x`, `y`, `tx`, `ty` are unchanged. -/
theorem obey_colour_pause (K : Consts) (hwf : K.wellFormed) (s : State) (b : byte)
    (hop : getOpcode b = K.TOOL) :
    (getOperand b = K.COLOUR →
      obey K s b = ({ s with tool := K.COLOUR, data := 0 }, [Call.colour s.data])) ∧
    (getOperand b = K.PAUSE →
      obey K s b = ({ s with data := 0 }, [Call.pause s.data])) := by
  obtain ⟨-, ⟨c1, c2⟩, -, -, -, -, ⟨p1, p2, p3, p4, p5, p6, p7⟩⟩ := wf_labels K hwf
  constructor
  · intro hc
    simp [obey, hop, hc, c1, c2]
  · intro hp
    simp [obey, hop, hp, p1, p2, p3, p4, p5, p6, p7]

theorem obey_colour_pause_witness :
    specConsts.wellFormed ∧ getOpcode (0x02 : byte) = specConsts.TOOL ∧
    getOperand (0x02 : byte) = specConsts.COLOUR ∧
    getOperand (0x07 : byte) = specConsts.PAUSE ∧
    obey specConsts { newState with data := 66, tx := 3 } 0x02 =
      ({ newState with tool := 2, data := 0, tx := 3 }, [Call.colour 66]) ∧
    obey specConsts { newState with data := 66, tx := 3 } 0x07 =
      ({ newState with data := 0, tx := 3 }, [Call.pause 66]) :=
  ⟨by decide, by decide, by decide, by decide,
    (obey_colour_pause specConsts (by decide) { newState with data := 66, tx := 3 } 0x02
      (by decide)).1 (by decide),
    (obey_colour_pause specConsts (by decide) { newState with data := 66, tx := 3 } 0x07
      (by decide)).2 (by decide)⟩

/-- C17. With accumulator `v`, a TARGETX instruction of class TOOL sets
`tx = v` and a TARGETY instruction sets `ty = v` (an assignment, not an
increment); each issues no display call and changes no other field except the
accumulator, which becomes 0. From accumulator 0, DATA bytes with chunks
`[1, 2]` followed by TARGETX give `tx = 66`. -/
theorem obey_target (K : Consts) (hwf : K.wellFormed) (s : State) (b : byte)
    (hop : getOpcode b = K.TOOL) :
    (getOperand b = K.TARGETX → obey K s b = ({ s with tx := s.data, data := 0 }, [])) ∧
    (getOperand b = K.TARGETY → obey K s b = ({ s with ty := s.data, data := 0 }, [])) ∧
    (getOperand b = K.TARGETX → s.data = 0 →
      ∀ b1 b2 : byte, getOpcode b1 = K.DATA → getOpcode b2 = K.DATA →
        chunk b1 = 1 → chunk b2 = 2 → (obeySeq K s [b1, b2, b]).1.tx = 66) := by
  obtain ⟨-, -, -, ⟨x1, x2, x3, x4⟩, ⟨y1, y2, y3, y4, y5⟩, -, -⟩ := wf_labels K hwf
  have hx : getOperand b = K.TARGETX →
      ∀ t : State, obey K t b = ({ t with tx := t.data, data := 0 }, []) := by
    intro hc t
    simp [obey, hop, hc, x1, x2, x3, x4]
  refine ⟨fun hc => hx hc s, ?_, ?_⟩
  · intro hc
    simp [obey, hop, hc, y1, y2, y3, y4, y5]
  · intro hc h0 b1 b2 hb1 hb2 hc1 hc2
    have hseq := obeySeq_data K hwf [b1, b2] s 0 (by simpa using h0)
      (by intro c hcm; simp at hcm; rcases hcm with rfl | rfl <;> assumption)
    have happ := obeySeq_append K [b1, b2] [b] s
    simp only [List.cons_append, List.nil_append] at happ
    rw [happ]
    simp only [obeySeq, hx hc]
    simp only [obeySeq] at hseq
    rw [hseq]
    simp [base64Value, hc1, hc2]

theorem obey_target_witness :
    specConsts.wellFormed ∧ getOpcode (0x04 : byte) = specConsts.TOOL ∧
    getOperand (0x04 : byte) = specConsts.TARGETX ∧
    obey specConsts { newState with data := 66, tx := 3 } 0x04 =
      ({ newState with data := 0, tx := 66 }, []) ∧
    (obeySeq specConsts newState [0xC1, 0xC2, 0x04]).1.tx = 66 :=
  ⟨by decide, by decide, by decide,
    (obey_target specConsts (by decide) { newState with data := 66, tx := 3 } 0x04
      (by decide)).1 (by decide),
    (obey_target specConsts (by decide) newState 0x04 (by decide)).2.2 (by decide) rfl
      0xC1 0xC2 (by decide) (by decide) (by decide) (by decide)⟩

/-- C19. On a byte of class DX with operand `k`, which lies in `[-32, 31]`,
`obey` sets `tx` to `tx + k`, issues no display call and leaves `x`, `y`, `ty`,
`tool`, `data`, `start` and `end` unchanged. -/
theorem obey_dx (K : Consts) (hwf : K.wellFormed) (s : State) (b : byte)
    (hop : getOpcode b = K.DX) :
    obey K s b = ({ s with tx := s.tx + getOperand b }, []) ∧
    -32 ≤ getOperand b ∧ getOperand b ≤ 31 := by
  obtain ⟨h1, -⟩ := wf_opcodes K hwf
  have h := getOperand_formula b
  refine ⟨by simp [obey, hop, h1], by omega, by omega⟩

theorem obey_dx_witness :
    specConsts.wellFormed ∧ getOpcode (0x7F : byte) = specConsts.DX ∧
    obey specConsts { newState with tx := 10, data := 5 } 0x7F =
      ({ newState with tx := 9, data := 5 }, []) :=
  ⟨by decide, by decide,
    (obey_dx specConsts (by decide) { newState with tx := 10, data := 5 } 0x7F
      (by decide)).1⟩

/-- C18. On a byte whose opcode class is not DY (so on every byte of class
TOOL, DX or DATA), `obey` leaves the cursor `x`, `y` unchanged. On a byte of
class DY the cursor becomes the whole target, with `ty` already updated:
`x = tx` and `y = ty + k`, which are the new `tx` and `ty`. -/
theorem obey_cursor (K : Consts) (hwf : K.wellFormed) (s : State) (b : byte) :
    (getOpcode b ≠ K.DY → (obey K s b).1.x = s.x ∧ (obey K s b).1.y = s.y) ∧
    (getOpcode b = K.DY →
      (obey K s b).1.x = s.tx ∧ (obey K s b).1.y = s.ty + getOperand b ∧
      (obey K s b).1.tx = s.tx ∧ (obey K s b).1.ty = s.ty + getOperand b) := by
  constructor
  · intro hne
    unfold obey
    by_cases h1 : getOpcode b = K.TOOL
    · simp only [h1, if_true]
      split_ifs <;> exact ⟨rfl, rfl⟩
    · simp only [h1, if_false, hne]
      split_ifs <;> exact ⟨rfl, rfl⟩
  · intro hop
    obtain ⟨-, h2, h3, -⟩ := wf_opcodes K hwf
    simp [obey, hop, h2, h3]

theorem obey_cursor_witness :
    specConsts.wellFormed ∧ getOpcode (0x45 : byte) ≠ specConsts.DY ∧
    getOpcode (0x85 : byte) = specConsts.DY ∧
    ((obey specConsts { newState with x := 1, y := 2, tx := 10, ty := 20 } 0x45).1.x = 1 ∧
      (obey specConsts { newState with x := 1, y := 2, tx := 10, ty := 20 } 0x45).1.y = 2) ∧
    (obey specConsts { newState with x := 1, y := 2, tx := 10, ty := 20 } 0x85).1.x = 10 :=
  ⟨by decide, by decide, by decide,
    (obey_cursor specConsts (by decide)
      { newState with x := 1, y := 2, tx := 10, ty := 20 } 0x45).1 (by decide),
    ((obey_cursor specConsts (by decide)
      { newState with x := 1, y := 2, tx := 10, ty := 20 } 0x85).2 (by decide)).1⟩

/-! ## The resume offset and the frame flag across calls -/

/-- A pass that applies no NEXTFRAME instruction, entered with `end` clear,
ends with `end` clear and `start` as on entry. -/
theorem frameLoop_end_false (K : Consts) (store : List byte) :
    ∀ (fuel i : Nat) (s : State), s.«end» = false →
      (∀ j ∈ (frameLoop K store fuel i s).applied, ∀ b, store[j]? = some b →
        ¬ isNextFrame K b) →
      (frameLoop K store fuel i s).state.«end» = false ∧
      (frameLoop K store fuel i s).state.start = s.start := by
  intro fuel
  induction fuel with
  | zero => intro i s he _; exact ⟨he, rfl⟩
  | succ fuel ih =>
    intro i s he hno
    by_cases h : i < store.length
    · have hg : store[i]? = some store[i] := List.getElem?_eq_getElem h
      cases he2 : (obey K s store[i]).1.«end» with
      | true =>
        rw [frameLoop_stop K store fuel i s h he2] at hno
        have hb := hno i (List.mem_singleton.mpr rfl) store[i] hg
        rw [obey_end_of_not_nextFrame K s _ hb, he] at he2
        exact absurd he2 (by decide)
      | false =>
        rw [frameLoop_cont K store fuel i s h he2] at hno ⊢
        obtain ⟨h1, h2⟩ := ih (i + 1) (obey K s store[i]).1 he2
          (fun j hj => hno j (List.mem_cons_of_mem i hj))
        exact ⟨h1, by rw [h2, obey_start]⟩
    · rw [frameLoop_oob K store _ i s (by omega)]
      exact ⟨he, rfl⟩

/-- A pass that applies a NEXTFRAME instruction ends with `end` set. -/
theorem frameLoop_end_true (K : Consts) (hwf : K.wellFormed) (store : List byte) :
    ∀ (fuel i : Nat) (s : State),
      (∃ j ∈ (frameLoop K store fuel i s).applied, ∃ b, store[j]? = some b ∧
        isNextFrame K b) →
      (frameLoop K store fuel i s).state.«end» = true := by
  intro fuel
  induction fuel with
  | zero =>
    intro i s hex
    obtain ⟨j, hj, -⟩ := hex
    simp [frameLoop] at hj
  | succ fuel ih =>
    intro i s hex
    by_cases h : i < store.length
    · have hg : store[i]? = some store[i] := List.getElem?_eq_getElem h
      cases he2 : (obey K s store[i]).1.«end» with
      | true =>
        rw [frameLoop_stop K store fuel i s h he2]
        exact he2
      | false =>
        rw [frameLoop_cont K store fuel i s h he2] at hex ⊢
        obtain ⟨j, hj, b, hb, hnf⟩ := hex
        rcases List.mem_cons.mp hj with hji | hjr
        · subst hji
          rw [hg] at hb
          have hbb : store[j] = b := Option.some.inj hb
          rw [← hbb] at hnf
          rw [obey_end_of_nextFrame K hwf s _ hnf] at he2
          exact absurd he2 (by decide)
        · exact ih (i + 1) (obey K s store[i]).1 ⟨j, hjr, b, hb, hnf⟩
    · rw [frameLoop_oob K store _ i s (by omega)] at hex
      obtain ⟨j, hj, -⟩ := hex
      simp at hj

/-- The indices applied by a call of `processSketch` are consecutive from its
start index, which is the first one applied when it is inside the stream. -/
theorem processSketch_applied_start (K : Consts) (store : List byte) (key : Int)
    (s : State) :
    ∃ n, (processSketch K store key (some s)).applied = List.range' (startIndex s) n ∧
      (startIndex s < store.length →
        (processSketch K store key (some s)).applied.head? = some (startIndex s)) := by
  rw [processSketch_some]
  obtain ⟨n, hn, -, -⟩ := frameLoop_applied K store (store.length - startIndex s)
    (startIndex s) { s with «end» := false }
  refine ⟨n, hn, ?_⟩
  intro hlt
  obtain ⟨m, hm⟩ : ∃ m, store.length - startIndex s = m + 1 :=
    ⟨store.length - startIndex s - 1, by omega⟩
  rw [hm]
  exact frameLoop_head K store m (startIndex s) _ hlt

/-- The resume offset after a call is the one before it, or lies above the
index at which the call started. -/
theorem processSketch_start_cases (K : Consts) (store : List byte) (key : Int)
    (s : State) :
    ∃ s2, (processSketch K store key (some s)).state = some s2 ∧
      (s2.start = s.start ∨ startIndex s < s2.start) := by
  refine ⟨_, rfl, ?_⟩
  rcases frameLoop_start K store (store.length - startIndex s) (startIndex s)
    { s with «end» := false } rfl with ⟨-, h2⟩ | ⟨-, j, h2, h3⟩
  · exact Or.inl h2
  · right
    have hj := (frameLoop_applied_lt K store _ _ _ j (List.mem_of_getLast?_eq_some h2)).1
    show startIndex s < (frameLoop K store (store.length - startIndex s) (startIndex s)
      { s with «end» := false }).state.start
    omega

/-- A call entered with `end` clear starts at index 0. -/
theorem startIndex_of_end_false (s : State) (he : s.«end» = false) : startIndex s = 0 := by
  simp [startIndex, he]

/-- A call entered with `end` set starts at index `start`. -/
theorem startIndex_of_end_true (s : State) (he : s.«end» = true) :
    startIndex s = s.start := by
  simp [startIndex, he]

/-- After a pass that applied no NEXTFRAME instruction, the next call starts at
index 0. -/
theorem processSketch_restart (K : Consts) (store : List byte) (key1 key2 : Int)
    (s : State)
    (hno : ∀ j ∈ (processSketch K store key1 (some s)).applied, ∀ b, store[j]? = some b →
      ¬ isNextFrame K b) :
    ∃ n, (processSketch K store key2 (processSketch K store key1 (some s)).state).applied
        = List.range' 0 n ∧
      (0 < store.length →
        (processSketch K store key2 (processSketch K store key1 (some s)).state).applied.head?
          = some 0) := by
  have he := (frameLoop_end_false K store (store.length - startIndex s) (startIndex s)
    { s with «end» := false } rfl hno).1
  have h0 : startIndex
      { (frameLoop K store (store.length - startIndex s) (startIndex s)
          { s with «end» := false }).state with
        x := 0, y := 0, tx := 0, ty := 0, tool := K.LINE } = 0 :=
    startIndex_of_end_false _ he
  have h := processSketch_applied_start K store key2
    { (frameLoop K store (store.length - startIndex s) (startIndex s)
        { s with «end» := false }).state with
      x := 0, y := 0, tx := 0, ty := 0, tool := K.LINE }
  rw [h0] at h
  exact h

/-- C11 (amended). A call of `processSketch` leaves the resume offset as it
was or sets it above the index at which the call started. So a call entered
with the frame flag set, which starts at `start`, never lowers the resume
offset; only a call entered with the flag clear, which starts again at index 0,
can lower it. -/
theorem processSketch_start_monotone (K : Consts) (store : List byte) (key : Int)
    (s : State) :
    ∃ s2, (processSketch K store key (some s)).state = some s2 ∧
      (s2.start = s.start ∨ startIndex s < s2.start) ∧
      (s.«end» = true → s.start ≤ s2.start) ∧
      (s2.start < s.start → s.«end» = false) := by
  obtain ⟨s2, h1, h2⟩ := processSketch_start_cases K store key s
  refine ⟨s2, h1, h2, ?_, ?_⟩
  · intro he
    rw [startIndex_of_end_true s he] at h2
    omega
  · intro hlt
    cases he : s.«end» with
    | false => rfl
    | true =>
      rw [startIndex_of_end_true s he] at h2
      omega

theorem processSketch_start_monotone_witness :
    ∃ s2, (processSketch specConsts [0x08, 0x08] 0
        (some { newState with start := 1, «end» := true })).state = some s2 ∧
      1 ≤ s2.start := by
  obtain ⟨s2, h1, -, h3, -⟩ := processSketch_start_monotone specConsts [0x08, 0x08] 0
    { newState with start := 1, «end» := true }
  exact ⟨s2, h1, h3 rfl⟩

/-- C11 (as stated, refuted). On the stream `[NEXTFRAME, NEXTFRAME]`, from the
initial state, the resume offset is 2 after the third call and 1 after the
fourth: it decreases. -/
theorem processCalls_start_decreases :
    specConsts.wellFormed ∧
    (processCalls specConsts [0x08, 0x08] [0, 0, 0] (some newState)).map State.start
      = some 2 ∧
    (processCalls specConsts [0x08, 0x08] [0, 0, 0, 0] (some newState)).map State.start
      = some 1 := by
  decide

/-- C12 (amended). When `processSketch` returns, the frame flag `end` is false
if the pass applied no NEXTFRAME instruction, and true if the pass stopped at a
NEXTFRAME instruction: saving the resume offset does not clear the flag. -/
theorem processSketch_end_flag (K : Consts) (hwf : K.wellFormed) (store : List byte)
    (key : Int) (s : State) :
    ∃ s2, (processSketch K store key (some s)).state = some s2 ∧
      ((∀ j ∈ (processSketch K store key (some s)).applied, ∀ b, store[j]? = some b →
          ¬ isNextFrame K b) → s2.«end» = false) ∧
      ((∃ j ∈ (processSketch K store key (some s)).applied, ∃ b, store[j]? = some b ∧
          isNextFrame K b) → s2.«end» = true) := by
  refine ⟨_, rfl, ?_, ?_⟩
  · intro hno
    exact (frameLoop_end_false K store (store.length - startIndex s) (startIndex s)
      { s with «end» := false } rfl hno).1
  · intro hex
    exact frameLoop_end_true K hwf store (store.length - startIndex s) (startIndex s)
      { s with «end» := false } hex

theorem processSketch_end_flag_witness :
    specConsts.wellFormed ∧
    ∃ s2, (processSketch specConsts [0x45, 0x08, 0x85] 0 (some newState)).state = some s2 ∧
      s2.«end» = true := by
  obtain ⟨s2, h1, -, h3⟩ := processSketch_end_flag specConsts (by decide)
    [0x45, 0x08, 0x85] 0 newState
  exact ⟨by decide, s2, h1, h3 ⟨1, by decide, 0x08, by decide, by decide⟩⟩

/-- C12 (as stated, refuted). On the stream `[NEXTFRAME]`, from the initial
state, the pass stops at the NEXTFRAME byte and `end` is true when
`processSketch` returns. -/
theorem processSketch_end_flag_stays_set :
    specConsts.wellFormed ∧ isNextFrame specConsts (0x08 : byte) ∧
    (processSketch specConsts [0x08] 0 (some newState)).applied = [0] ∧
    (processSketch specConsts [0x08] 0 (some newState)).state.map State.«end»
      = some true := by
  decide

/-- C13 (amended). If a `processSketch` pass reaches the end of the stream
without applying a NEXTFRAME instruction, the frame flag is clear when it
returns, and the next call on the same stream and state starts again at index
0: the indices it applies are consecutive from 0, and byte 0 is the first
instruction it applies when the stream is not empty. -/
theorem processSketch_after_stream_end (K : Consts) (store : List byte)
    (key1 key2 : Int) (s : State)
    (hno : ∀ j ∈ (processSketch K store key1 (some s)).applied, ∀ b, store[j]? = some b →
      ¬ isNextFrame K b) :
    (processSketch K store key1 (some s)).state.map State.«end» = some false ∧
    (∃ n, (processSketch K store key2 (processSketch K store key1 (some s)).state).applied
        = List.range' 0 n) ∧
    (0 < store.length →
      (processSketch K store key2 (processSketch K store key1 (some s)).state).applied.head?
        = some 0) := by
  obtain ⟨n, hn, hhead⟩ := processSketch_restart K store key1 key2 s hno
  refine ⟨?_, ⟨n, hn⟩, hhead⟩
  have he := (frameLoop_end_false K store (store.length - startIndex s) (startIndex s)
    { s with «end» := false } rfl hno).1
  rw [processSketch_some]
  exact congrArg some he

theorem processSketch_after_stream_end_witness :
    (∀ j ∈ (processSketch specConsts [0x45, 0x85] 0 (some newState)).applied,
      ∀ b, ([0x45, 0x85] : List byte)[j]? = some b → ¬ isNextFrame specConsts b) ∧
    (processSketch specConsts [0x45, 0x85] 0
      (processSketch specConsts [0x45, 0x85] 0 (some newState)).state).applied.head?
      = some 0 :=
  have hno : ∀ j ∈ (processSketch specConsts [0x45, 0x85] 0 (some newState)).applied,
      ∀ b, ([0x45, 0x85] : List byte)[j]? = some b → ¬ isNextFrame specConsts b := by
    intro j hj b hb
    have hmem : b ∈ ([0x45, 0x85] : List byte) := List.getElem?_mem hb
    have hall : ∀ c ∈ ([0x45, 0x85] : List byte), ¬ isNextFrame specConsts c := by decide
    exact hall b hmem
  ⟨hno, (processSketch_after_stream_end specConsts [0x45, 0x85] 0 0 newState hno).2.2
    (by decide)⟩

/-- C13 (as stated, refuted). On the one-byte stream `[DX 5]`, from the initial
state, the first pass applies byte 0, which is no NEXTFRAME instruction, and
reaches the end of the stream; the next call applies byte 0 again. -/
theorem processSketch_replays_after_stream_end :
    ¬ isNextFrame specConsts (0x45 : byte) ∧
    (processSketch specConsts [0x45] 0 (some newState)).applied = [0] ∧
    (processSketch specConsts [0x45] 0
      (processSketch specConsts [0x45] 0 (some newState)).state).applied = [0] ∧
    (processSketch specConsts [0x45] 0
      (processSketch specConsts [0x45] 0 (some newState)).state).applied ≠ [] := by
  decide

/-- C20. The index at which a `processSketch` pass starts is decided by the
flag `end` on entry. With `end` false the applied indices are consecutive from
0, and byte 0 is applied first when the stream is not empty, whatever `start`
holds. With `end` true they are consecutive from `start`, and byte `start` is
applied first when it is inside the stream. Hence the call after a pass that
ran to the end of the stream without a NEXTFRAME instruction replays the
stream from index 0. -/
theorem processSketch_start_index (K : Consts) (store : List byte) (key : Int)
    (s : State) :
    (s.«end» = false →
      (∃ n, (processSketch K store key (some s)).applied = List.range' 0 n) ∧
      (0 < store.length → (processSketch K store key (some s)).applied.head? = some 0)) ∧
    (s.«end» = true →
      (∃ n, (processSketch K store key (some s)).applied = List.range' s.start n) ∧
      (s.start < store.length →
        (processSketch K store key (some s)).applied.head? = some s.start)) ∧
    ((∀ j ∈ (processSketch K store key (some s)).applied, ∀ b, store[j]? = some b →
        ¬ isNextFrame K b) →
      ∀ key2 : Int,
        (∃ n, (processSketch K store key2 (processSketch K store key (some s)).state).applied
          = List.range' 0 n) ∧
        (0 < store.length →
          (processSketch K store key2
            (processSketch K store key (some s)).state).applied.head? = some 0)) := by
  obtain ⟨n, hn, hhead⟩ := processSketch_applied_start K store key s
  refine ⟨?_, ?_, ?_⟩
  · intro he
    rw [startIndex_of_end_false s he] at hn hhead
    exact ⟨⟨n, hn⟩, hhead⟩
  · intro he
    rw [startIndex_of_end_true s he] at hn hhead
    exact ⟨⟨n, hn⟩, hhead⟩
  · intro hno key2
    obtain ⟨m, hm, hh⟩ := processSketch_restart K store key key2 s hno
    exact ⟨⟨m, hm⟩, hh⟩

theorem processSketch_start_index_witness :
    (processSketch specConsts [0x45, 0x85, 0x41] 0
      (some { newState with start := 2 })).applied.head? = some 0 ∧
    (processSketch specConsts [0x45, 0x85, 0x41] 0
      (some { newState with start := 2, «end» := true })).applied.head? = some 2 :=
  ⟨((processSketch_start_index specConsts [0x45, 0x85, 0x41] 0
      { newState with start := 2 }).1 rfl).2 (by decide),
    ((processSketch_start_index specConsts [0x45, 0x85, 0x41] 0
      { newState with start := 2, «end» := true }).2.1 rfl).2 (by decide)⟩

end Sketch
